import Mathlib

/-!
Shallow embedding of braincorp/auto_argparser.

Strings are modelled as lists of characters (`Str`), Python ints as `Int`,
Python floats as exact decimal values (`PyFloat`, a mantissa/shift pair;
the claims only exercise which conversions succeed and what literal they
read, never float arithmetic or rounding), and Python exceptions as
`Except` errors.  Each
definition follows the corresponding function of
`src/auto_argparser/src/auto_argparser/auto_argparser.py` or
`src/auto_argparser/src/brain_utils/string_utils.py`; the external
flag-parsing primitive (argparse) is modelled only in the fragment the
source exercises, as described at its definitions.
-/

namespace AutoArgParse

abbrev Str := List Char

/-- Type annotations, as a tagged tree (spec section 9: tagged-variant
type-descriptor tree).  `noneT` is NoneType, `anyT` is typing.Any,
`otherT` is any unrecognized annotation (the source converts those with
`str`), `intEnumT` an IntEnum subclass (the source converts with `int`). -/
inductive TypeAnn where
  | intT
  | floatT
  | strT
  | boolT
  | noneT
  | anyT
  | intEnumT
  | otherT
  | seqT (t : TypeAnn)
  | listT (t : TypeAnn)
  | setT (t : TypeAnn)
  | tupleT (ts : List TypeAnn)
  | mapT (k v : TypeAnn)
  | unionT (ts : List TypeAnn)

/-- The exceptions conversion can raise.  Each constructor carries the
data the corresponding Python message interpolates:
`unbalancedBracket`/`mismatchedBracket`/`unclosedBracket` are the asserts
of `bracketed_split`; `boolError` is the ArgumentTypeError of `str2bool`
(carrying the offending string); `intError`/`floatError` are the
ValueErrors of `int()`/`float()`; `tupleArityError` is the tuple-arity
assert (carrying expected types and actual parts); `mapPairError` is the
AutoArgParserError for malformed mapping pairs; `unionError` is the
AutoArgParserError when no union arm matches (carrying all arms). -/
inductive ConvError where
  | unbalancedBracket
  | mismatchedBracket (closing opening : Char)
  | unclosedBracket
  | boolError (offending : Str)
  | intError (s : Str)
  | floatError (s : Str)
  | tupleArityError (expected : List TypeAnn) (parts : List Str)
  | mapPairError (s : Str) (pairs : List (List Str))
  | unionError (value : Str) (arms : List TypeAnn)

/-- The decimal value `mantissa / 10 ^ shift` read by `float()` from a
literal; kept unnormalized so that values compute by plain structural
recursion. -/
structure PyFloat where
  mantissa : Int
  shift : Nat
deriving DecidableEq

/-- Python values as produced by the converters.  `VNoValue` is the
`NoValue` sentinel class of the source.  `VSet` keeps the converted
elements as a list (Python set semantics beyond membership are not
needed by any claim); `VMap` is an ordered key/value list, the model of
OrderedDict. -/
inductive Value where
  | VInt (n : Int)
  | VFloat (f : PyFloat)
  | VStr (s : Str)
  | VBool (b : Bool)
  | VNone
  | VNoValue
  | VList (l : List Value)
  | VTuple (l : List Value)
  | VSet (l : List Value)
  | VMap (l : List (Value × Value))

/- ---------- string helpers (models of the Python str methods used) ---------- -/

/-- Python `s.lstrip(chars)`: drop leading characters belonging to the set. -/
def lstripSet (s : Str) (chars : Str) : Str :=
  s.dropWhile (fun c => chars.contains c)

/-- Python `s.strip(chars)`: drop characters of the set from both ends. -/
def stripSet (s : Str) (chars : Str) : Str :=
  ((s.dropWhile (fun c => chars.contains c)).reverse.dropWhile
    (fun c => chars.contains c)).reverse

/-- Python `s.strip()` (no argument): strip whitespace from both ends. -/
def stripWS (s : Str) : Str :=
  ((s.dropWhile Char.isWhitespace).reverse.dropWhile Char.isWhitespace).reverse

/-- Python `s.split(d)` for a one-character separator and no maxsplit. -/
def splitOnChar (d : Char) : Str → List Str
  | [] => [[]]
  | c :: cs =>
    match splitOnChar d cs with
    | [] => [[]]
    | r :: rs => if c = d then [] :: r :: rs else (c :: r) :: rs

/-- Numeric value of a string of decimal digits. -/
def natOfDigits (s : Str) : Nat :=
  s.foldl (fun a c => a * 10 + (c.toNat - 48)) 0

/-- Python `int(s)` (model for the decimal literals appearing here):
optional surrounding whitespace, one optional sign, then at least one
digit; anything else raises ValueError. -/
def pythonInt (s : Str) : Except ConvError Int :=
  match stripWS s with
  | '-' :: mag =>
    if !mag.isEmpty && mag.all Char.isDigit then .ok (-(natOfDigits mag : Int))
    else .error (.intError s)
  | '+' :: mag =>
    if !mag.isEmpty && mag.all Char.isDigit then .ok (natOfDigits mag : Int)
    else .error (.intError s)
  | mag =>
    if !mag.isEmpty && mag.all Char.isDigit then .ok (natOfDigits mag : Int)
    else .error (.intError s)

/-- Unsigned part of a Python float literal: `digits`, `digits.digits`,
`digits.` or `.digits` (at least one digit overall); the result is the
digit string's value paired with the number of fractional digits. -/
def parseUnsignedFloat (cs : Str) : Option (Nat × Nat) :=
  let ip := cs.takeWhile Char.isDigit
  match cs.dropWhile Char.isDigit with
  | [] => if ip.isEmpty then none else some (natOfDigits ip, 0)
  | '.' :: frac =>
    if frac.all Char.isDigit && (!ip.isEmpty || !frac.isEmpty) then
      some (natOfDigits (ip ++ frac), frac.length)
    else none
  | _ => none

/-- Python `float(s)` (model for the plain decimal literals appearing
here): optional surrounding whitespace, one optional sign, then an
unsigned decimal literal; anything else raises ValueError. -/
def pythonFloat (s : Str) : Except ConvError PyFloat :=
  match stripWS s with
  | '-' :: r =>
    match parseUnsignedFloat r with
    | some q => .ok { mantissa := -(q.1 : Int), shift := q.2 }
    | none => .error (.floatError s)
  | '+' :: r =>
    match parseUnsignedFloat r with
    | some q => .ok { mantissa := (q.1 : Int), shift := q.2 }
    | none => .error (.floatError s)
  | r =>
    match parseUnsignedFloat r with
    | some q => .ok { mantissa := (q.1 : Int), shift := q.2 }
    | none => .error (.floatError s)

/-- Python `s.isnumeric()` restricted to the ASCII strings this code
handles: nonempty and all decimal digits. -/
def isnumericStr (s : Str) : Bool :=
  !s.isEmpty && s.all Char.isDigit

/- ---------- str2bool (source lines 106-118) ---------- -/

def truthyStrings : List Str :=
  ["yes".data, "true".data, "t".data, "y".data, "1".data]

def falsyStrings : List Str :=
  ["no".data, "false".data, "f".data, "n".data, "0".data]

/-- `str2bool`: case-insensitive membership in the truthy or falsy set,
otherwise ArgumentTypeError carrying the offending string. -/
def str2bool (s : Str) : Except ConvError Bool :=
  let l := s.map Char.toLower
  if truthyStrings.contains l then .ok true
  else if falsyStrings.contains l then .ok false
  else .error (.boolError s)

/- ---------- bracketed_split (string_utils.py lines 4-35) ---------- -/

def openerChars : Str := ['[', '\x7b', '(', '<']

def closerChars : Str := [']', '\x7d', ')', '>']

/-- The closing bracket paired with an opening bracket
(`opener_to_closer` of the source). -/
def closerFor (c : Char) : Char :=
  if c = '[' then ']'
  else if c = '\x7b' then '\x7d'
  else if c = '(' then ')'
  else '>'

/-- Scanner state of `bracketed_split`: the stack of currently open
brackets (the source keeps `depth` plus a depth-indexed dict of opening
brackets, which together behave as this stack), the accumulating
segment, the number of delimiter splits made so far, and the segments
already yielded. -/
structure SplitSt where
  stack : List Char
  current : Str
  nYields : Nat
  out : List Str

/-- Shared tail of the loop body of `bracketed_split`: at depth 0 a
delimiter (within the maxsplit budget) yields the accumulating segment,
any other character is appended to it. -/
def bsAppendOrYield (delim : Char) (maxsplit : Option Nat) (st : SplitSt) (c : Char) : SplitSt :=
  if st.stack.isEmpty && c == delim &&
      (match maxsplit with | none => true | some m => st.nYields < m) then
    { st with out := st.out ++ [st.current], nYields := st.nYields + 1, current := [] }
  else
    { st with current := st.current ++ [c] }

/-- One character step of `bracketed_split`.  An opening bracket is
pushed; with `strip_brackets` set it is skipped (the `continue`) exactly
when it moved the depth from 0 to 1.  A closing bracket must match the
innermost opener (else the asserts fire) and is popped; with
`strip_brackets` set it is skipped exactly when it moved the depth back
to 0.  Every character that is not skipped then goes through the
delimiter check. -/
def bsStep (delim : Char) ( strip_brackets : Bool) (maxsplit : Option Nat)
    (st : SplitSt) (c : Char) : Except ConvError SplitSt :=
  if openerChars.contains c then
    let st1 : SplitSt := { st with stack := c :: st.stack }
    if strip_brackets && st.stack.isEmpty then .ok st1
    else .ok (bsAppendOrYield delim maxsplit st1 c)
  else if closerChars.contains c then
    match st.stack with
    | [] => .error .unbalancedBracket
    | o :: rest =>
      if closerFor o ≠ c then .error (.mismatchedBracket c o)
      else
        let st1 : SplitSt := { st with stack := rest }
        if strip_brackets && rest.isEmpty then .ok st1
        else .ok (bsAppendOrYield delim maxsplit st1 c)
  else .ok (bsAppendOrYield delim maxsplit st c)

/-- `bracketed_split`, fully evaluated (every caller in the source
drains the generator; a conversion error interleaved with lazy
consumption aborts the whole conversion either way). -/
def bracketed_split (string : Str) (delimiter : Char) ( strip_brackets : Bool)
    (maxsplit : Option Nat) : Except ConvError (List Str) := do
  let st ← string.foldlM (bsStep delimiter strip_brackets maxsplit)
    ⟨[], [], 0, []⟩
  if st.stack.isEmpty then .ok (st.out ++ [st.current])
  else .error .unclosedBracket

/- ---------- parse_string_guessing_type (source lines 188-205) ---------- -/

def quoteChars : Str := ['"', '\'']

def floatGuessChars : Str := "1234567890.".data

/-- `parse_string_guessing_type`: strip spaces, then try in order:
all-numeric → int; only digits and dots after leading minus signs →
float (whose ValueError propagates); "none" → None; "true"/"false" →
str2bool; leading quote → quote-stripped string; else the raw string. -/
def parse_string_guessing_type (s0 : Str) : Except ConvError Value :=
  let s := stripSet s0 [' ']
  if isnumericStr s then .ok (.VInt (natOfDigits s : Int))
  else if (s.dropWhile (fun c => c == '-')).all (fun c => floatGuessChars.contains c) then
    (pythonFloat s).map .VFloat
  else if s.map Char.toLower = "none".data then .ok .VNone
  else if s.map Char.toLower = "true".data ∨ s.map Char.toLower = "false".data then
    (str2bool s).map .VBool
  else
    match s with
    | c :: _ =>
      if quoteChars.contains c then .ok (.VStr (stripSet s quoteChars))
      else .ok (.VStr s)
    | [] => .ok (.VStr s)

/- ---------- structural equality of values (model of Python ==) ---------- -/

mutual
/-- Structural equality on values, modelling Python equality for the
key comparisons OrderedDict makes.  (Python numeric cross-type equality
such as 3 == 3.0 is outside what any claim exercises.) -/
def vbeq : Value → Value → Bool
  | .VInt a, .VInt b => a == b
  | .VFloat a, .VFloat b => a == b
  | .VStr a, .VStr b => a == b
  | .VBool a, .VBool b => a == b
  | .VNone, .VNone => true
  | .VNoValue, .VNoValue => true
  | .VList a, .VList b => vbeqList a b
  | .VTuple a, .VTuple b => vbeqList a b
  | .VSet a, .VSet b => vbeqList a b
  | .VMap a, .VMap b => vbeqPairs a b
  | _, _ => false

def vbeqList : List Value → List Value → Bool
  | [], [] => true
  | a :: as', b :: bs => vbeq a b && vbeqList as' bs
  | _, _ => false

def vbeqPairs : List (Value × Value) → List (Value × Value) → Bool
  | [], [] => true
  | a :: as', b :: bs => vbeq a.1 b.1 && vbeq a.2 b.2 && vbeqPairs as' bs
  | _, _ => false
end

/- ---------- the OrderedDict model ---------- -/

/-- Python `d[k] = v` on an ordered dict: if an equal key is present its
value is replaced in place (the stored key object is kept), otherwise
the new pair is appended. -/
def odInsert (d : List (Value × Value)) (k v : Value) : List (Value × Value) :=
  if d.any (fun kv => vbeq kv.1 k) then
    d.map (fun kv => if vbeq kv.1 k then (kv.1, v) else kv)
  else d ++ [(k, v)]

/-- `OrderedDict(pairs)`: insert the pairs left to right. -/
def odFromPairs (ps : List (Value × Value)) : List (Value × Value) :=
  ps.foldl (fun d kv => odInsert d kv.1 kv.2) []

/-- Dictionary lookup: value of the first entry with an equal key. -/
def odGet (d : List (Value × Value)) (k : Value) : Option Value :=
  (d.find? (fun kv => vbeq kv.1 k)).map (fun kv => kv.2)

/-- The keys of the dict, in storage order. -/
def odKeys (d : List (Value × Value)) : List Value :=
  d.map (fun kv => kv.1)

/- ---------- the converter resolver (source lines 121-185) ---------- -/

/-- First successful conversion among a list of converters — the
`for subtype in subtypes: try ... except: continue` loop of
`convert_union_string` (the bare except catches every failure). -/
def firstOk (convs : List (Str → Except ConvError Value)) (s : Str) : Option Value :=
  match convs with
  | [] => none
  | f :: fs =>
    match f s with
    | .ok v => some v
    | .error _ => firstOk fs s

/-- Positional conversion of tuple parts with the per-position
converters (run only after the arity assert has passed; the recursion
mirrors the generator over `zip(subtypes, string_reps)`). -/
def zipApply : List (Str → Except ConvError Value) → List Str →
    Except ConvError (List Value)
  | [], _ => .ok []
  | _ :: _, [] => .ok []
  | f :: fs, p :: ps => do
    let v ← f p
    let vs ← zipApply fs ps
    pure (v :: vs)

/-- Does a union contain NoneType (`type(None) in subtypes`)? -/
def hasNoneT (ts : List TypeAnn) : Bool :=
  ts.any (fun t => match t with | .noneT => true | _ => false)

mutual
/-- `get_appropriate_type_converter`: resolve an annotation to a
converter.  Mapping splits on top-level commas then each pair on the
first top-level colon; Sequence/List/Set split on commas with bracket
stripping; Tuple splits on plain commas and asserts the arity before
converting positionally; Union short-circuits the literal "None" when a
null arm exists and otherwise takes the first arm that converts; bool
uses `str2bool`; int/float use the primitive parsers; IntEnum converts
as int; Any guesses; NoneType and unrecognized annotations fall through
to `str` (identity). -/
def get_converter : TypeAnn → Str → Except ConvError Value
  | .intT => fun s => (pythonInt s).map .VInt
  | .floatT => fun s => (pythonFloat s).map .VFloat
  | .strT => fun s => .ok (.VStr s)
  | .boolT => fun s => (str2bool s).map .VBool
  | .noneT => fun s => .ok (.VStr s)
  | .anyT => fun s => parse_string_guessing_type s
  | .intEnumT => fun s => (pythonInt s).map .VInt
  | .otherT => fun s => .ok (.VStr s)
  | .seqT t =>
    let conv := get_converter t
    fun s => do
      let parts ← bracketed_split s ',' true none
      let vs ← parts.mapM conv
      pure (.VList vs)
  | .listT t =>
    let conv := get_converter t
    fun s => do
      let parts ← bracketed_split s ',' true none
      let vs ← parts.mapM conv
      pure (.VList vs)
  | .setT t =>
    let conv := get_converter t
    fun s => do
      let parts ← bracketed_split s ',' true none
      let vs ← parts.mapM conv
      pure (.VSet vs)
  | .tupleT ts =>
    let convs := get_converters ts
    fun s =>
      let parts := splitOnChar ',' s
      if parts.length = ts.length then (zipApply convs parts).map .VTuple
      else .error (.tupleArityError ts parts)
  | .mapT kt vt =>
    let kc := get_converter kt
    let vc := get_converter vt
    fun s => do
      let substrs ← bracketed_split s ',' false none
      let kvPairs ← substrs.mapM (fun sub => bracketed_split sub ':' true (some 1))
      if kvPairs.all (fun p => p.length = 2) then do
        let cps ← kvPairs.mapM (fun p =>
          match p with
          | [k, v] => do
            let kv ← kc k
            let vv ← vc v
            pure (kv, vv)
          | _ => .error (.mapPairError s kvPairs))
        pure (.VMap (odFromPairs cps))
      else .error (.mapPairError s kvPairs)
  | .unionT ts =>
    let convs := get_converters ts
    fun s =>
      if s = "None".data ∧ hasNoneT ts then .ok .VNone
      else
        match firstOk convs s with
        | some v => .ok v
        | none => .error (.unionError s ts)

/-- The converters of a list of annotations, in declared order. -/
def get_converters : List TypeAnn → List (Str → Except ConvError Value)
  | [] => []
  | t :: ts => get_converter t :: get_converters ts
end

/-- Conversion of one string with the resolved converter of an
annotation. -/
def convert (t : TypeAnn) (s : Str) : Except ConvError Value :=
  get_converter t s

/- ---------- token-list transforms (source lines 208-243 and 330-337) ---------- -/

/-- The characters `lstrip`-ped when testing whether a token is an
argument key (so that a bare negative number is not mistaken for one). -/
def keyStripChars : Str := "-.,0123456789".data

/-- `is_argument_key`: the token starts with a dash and, after
stripping dashes, dots, commas and digits from the left, something
remains (source lines 222 and 333). -/
def is_argument_key (a : Str) : Bool :=
  (match a with | '-' :: _ => true | _ => false) &&
    !(lstripSet a keyStripChars).isEmpty

/-- The named token `--name=value`. -/
def mkNamedTok (name value : Str) : Str :=
  '-' :: '-' :: name ++ '=' :: value

/-- The positional-promotion loop of `parse_arg_string_and_remaining`
(lines 331-337): walk tokens and parameter names in lock-step, rewriting
each token that is not an argument key as `--name=token`; stop at the
first argument key or when names run out, leaving the rest unchanged. -/
def promote (tokens : List Str) (names : List Str) : List Str :=
  match tokens, names with
  | t :: ts, n :: ns =>
    if is_argument_key t then t :: ts
    else mkNamedTok n t :: promote ts ns
  | ts, [] => ts
  | [], _ => []

/-- Python `s.lstrip('-')`. -/
def lstripDash (s : Str) : Str :=
  s.dropWhile (fun c => c == '-')

/-- The boolean-flag detection of `_add_arg_to_parser` (lines 62-68):
scan the tokens for one that names this argument (for the long name the
token must not contain an equals sign; for the short name the source
omits that check) and is either last or followed by a token starting
with a dash — then the argument is registered as a zero-value
store-true flag. -/
def detect_is_flag (arg_name : Str) (short_name : Option Str) : List Str → Bool
  | [] => false
  | t :: rest =>
    let hit := (!t.contains '=' && lstripDash t == arg_name) ||
      (match short_name with
       | some sn => lstripDash t == sn
       | none => false)
    if hit then
      match rest with
      | [] => true
      | nxt :: _ =>
        if (match nxt with | '-' :: _ => true | _ => false) then true
        else detect_is_flag arg_name short_name rest
    else detect_is_flag arg_name short_name rest

/-- Models the external flag-parsing primitive looking up one argument
given in `--name=value` form: the value of the last such token, if any
(argparse keeps the last occurrence of a repeated flag). -/
def find_eq_value (name : Str) : List Str → Option Str
  | [] => none
  | t :: ts =>
    match find_eq_value name ts with
    | some v => some v
    | none =>
      let pre := '-' :: '-' :: name ++ ['=']
      if pre.isPrefixOf t then some (t.drop pre.length) else none

/-- Models the external flag-parsing primitive (argparse) on the
fragment the equivalence claim exercises: every argument is registered
with its resolved converter and default, and every token has the
`--name=value` form; a missing token leaves the default, a present one
is converted. -/
def flag_parse (params : List (Str × TypeAnn × Value)) (tokens : List Str) :
    Except ConvError (List (Str × Value)) :=
  params.mapM (fun p =>
    match find_eq_value p.1 tokens with
    | some v => (convert p.2.1 v).map (fun x => (p.1, x))
    | none => .ok (p.1, p.2.2))

/-- `parse_arg_string_and_remaining` restricted to primitive-typed
parameters: promote leading positionals, then hand the token list to
the flag primitive. -/
def parse_kwargs (params : List (Str × TypeAnn × Value)) (tokens : List Str) :
    Except ConvError (List (Str × Value)) :=
  flag_parse params (promote tokens (params.map (fun p => p.1)))

/-- Models registering and parsing one bool-typed argument, following
`_add_arg_to_parser` (lines 62-74): when the flag detection fires the
argument is a store-true flag (present → true, else the default);
otherwise its `--name=value` token is converted with `str2bool`, and an
absent token leaves the default. -/
def parse_bool_arg (tokens : List Str) (name : Str) (default : Bool) :
    Except ConvError Value :=
  if detect_is_flag name none tokens then
    .ok (.VBool (tokens.any (fun t => t == '-' :: '-' :: name) || default))
  else
    match find_eq_value name tokens with
    | some v => (str2bool v).map .VBool
    | none => .ok (.VBool default)

/- ---------- separate_subargs_under_name (source lines 208-243) ---------- -/

/-- The prefix `--name.` routing a token to the sub-namespace. -/
def fullPre (name : Str) : Str := '-' :: '-' :: name ++ ['.']

/-- The prefix `-short.` routing a token to the sub-namespace. -/
def shortPre (sn : Str) : Str := '-' :: sn ++ ['.']

/-- The loop of `separate_subargs_under_name`, with the
`last_was_keeper` flag as an argument: an argument key matching the
full or short dotted prefix is rewritten to `--rest` and kept; a token
right after a kept key that is not itself a key is kept as its value;
everything else goes to the remainders. -/
def separate_subargs_go (name : Str) (short : Option Str) :
    List Str → Bool → (List Str × List Str)
  | [], _ => ([], [])
  | a :: rest, lastKeep =>
    if is_argument_key a then
      if (fullPre name).isPrefixOf a then
        let r := separate_subargs_go name short rest true
        (('-' :: '-' :: a.drop (fullPre name).length) :: r.1, r.2)
      else
        match short with
        | some sn =>
          if (shortPre sn).isPrefixOf a then
            let r := separate_subargs_go name short rest true
            (('-' :: '-' :: a.drop (shortPre sn).length) :: r.1, r.2)
          else
            let r := separate_subargs_go name short rest false
            (r.1, a :: r.2)
        | none =>
          let r := separate_subargs_go name short rest false
          (r.1, a :: r.2)
    else if lastKeep then
      let r := separate_subargs_go name short rest false
      (a :: r.1, r.2)
    else
      let r := separate_subargs_go name short rest false
      (r.1, a :: r.2)

/-- `separate_subargs_under_name`: split the tokens into the
sub-namespace tokens of `name` and the remaining tokens. -/
def separate_subargs_under_name (args : List Str) (name : Str)
    (short : Option Str) : List Str × List Str :=
  separate_subargs_go name short args false

/-- Does this argument key match the dotted prefix of the name (or of
the short name), with the precedence the source uses? -/
def matchesSubPre (name : Str) (short : Option Str) (a : Str) : Bool :=
  (fullPre name).isPrefixOf a ||
    (match short with
     | some sn => (shortPre sn).isPrefixOf a
     | none => false)

/-- The rewritten form of a sub-namespace key: the matching prefix is
replaced by a double dash. -/
def subRewrite (name : Str) (short : Option Str) (a : Str) : Str :=
  if (fullPre name).isPrefixOf a then '-' :: '-' :: a.drop (fullPre name).length
  else
    match short with
    | some sn => '-' :: '-' :: a.drop (shortPre sn).length
    | none => a

/-- The routing transform as the specification states it: a key token
matching the dotted prefix is rewritten and routed to the sub-tokens;
the token immediately following it, when not itself a key token, is
routed to the sub-tokens as its value; every other token goes to the
remaining tokens; relative order is preserved in both outputs. -/
def route_spec (name : Str) (short : Option Str) : List Str → (List Str × List Str)
  | [] => ([], [])
  | a :: rest =>
    if is_argument_key a && matchesSubPre name short a then
      match rest with
      | [] => ([subRewrite name short a], [])
      | b :: rest2 =>
        if is_argument_key b then
          let r := route_spec name short (b :: rest2)
          (subRewrite name short a :: r.1, r.2)
        else
          let r := route_spec name short rest2
          (subRewrite name short a :: b :: r.1, r.2)
    else
      let r := route_spec name short rest
      (r.1, a :: r.2)
termination_by l => l.length

/- ---------- the invocation step (source lines 379-380) ---------- -/

/-- Is a value the `NoValue` sentinel (`v is NoValue`)? -/
def isNoValue : Value → Bool
  | .VNoValue => true
  | _ => false

/-- Python `d[k] = v` on a string-keyed dict: replace in place if the
key is present, else append. -/
def dict_set (d : List (Str × Value)) (k : Str) (v : Value) : List (Str × Value) :=
  if d.any (fun kv => kv.1 == k) then
    d.map (fun kv => if kv.1 == k then (kv.1, v) else kv)
  else d ++ [(k, v)]

/-- Python `d.update(e)`: set every entry of `e` in `d`, left to right. -/
def dict_update (d e : List (Str × Value)) : List (Str × Value) :=
  e.foldl (fun acc kv => dict_set acc kv.1 kv.2) d

/-- Lines 379-380 of `parse_arg_string_and_remaining`: drop the entries
of the parsed namespace whose value is the `NoValue` sentinel, then
merge in the nested-record results; the outcome is the keyword-argument
mapping passed to the callable. -/
def final_kwargs (ns sub_kwargs : List (Str × Value)) : List (Str × Value) :=
  dict_update (ns.filter (fun kv => !isNoValue kv.2)) sub_kwargs

/- ---------- construction (AutoArgParser.__init__, lines 266-297) ---------- -/

/-- The construction-time failures: the asserts of `__init__` naming
the offending override keys. -/
inductive ConfigError where
  | shortNamesNotArgs (bad : List Str)
  | convertersNotArgs (bad : List Str)

/-- One argument descriptor as `__init__` builds it (only the fields
the construction claims need). -/
structure ArgSpecL where
  name : Str
  default : Value

/-- First-match lookup in an association list (the model of reading a
Python dict built from these pairs, whose keys are distinct). -/
def lookupStr : List (Str × Value) → Str → Option Value
  | [], _ => none
  | kv :: rest, k => if kv.1 == k then some kv.2 else lookupStr rest k

/-- The descriptor list `__init__` builds (line 291-296): each
parameter is paired with its right-aligned default, replaced by the
default-override entry when one names it; an override key naming no
parameter is never consulted. -/
def build_argspecs (fnArgs : List Str) (defaults : List Value)
    (default_overrides : Option (List (Str × Value))) : List ArgSpecL :=
  List.zipWith (fun n d =>
    { name := n
      default :=
        match default_overrides with
        | none => d
        | some m =>
          match lookupStr m n with
          | some v => v
          | none => d }) fnArgs defaults

/-- `AutoArgParser.__init__` (lines 279-296), restricted to what
construction validates and builds: when the callable has no catch-all
keyword parameter, the short-name keys and then the arg-converter keys
must all be parameter names (the asserts); the default-override keys
are not checked anywhere — they are only looked up per parameter while
building the descriptors. -/
def auto_arg_parser_init (fnArgs : List Str) (hasVarkw : Bool)
    (short_names : Option (List Str)) (arg_converters : Option (List Str))
    (default_overrides : Option (List (Str × Value))) (defaults : List Value) :
    Except ConfigError (List ArgSpecL) :=
  let checkShort : Except ConfigError Unit :=
    if hasVarkw then .ok ()
    else
      match short_names with
      | none => .ok ()
      | some ks =>
        let bad := ks.filter (fun k => !fnArgs.contains k)
        if bad.isEmpty then .ok () else .error (.shortNamesNotArgs bad)
  do
    checkShort
    (if hasVarkw then .ok ()
     else
       match arg_converters with
       | none => .ok ()
       | some ks =>
         let bad := ks.filter (fun k => !fnArgs.contains k)
         if bad.isEmpty then .ok () else .error (.convertersNotArgs bad))
    pure (build_argspecs fnArgs defaults default_overrides)

theorem vbeqList_iff (l m : List Value)
    (H : ∀ x ∈ l, ∀ y, vbeq x y = true ↔ x = y) :
    vbeqList l m = true ↔ l = m := by
  induction l generalizing m with
  | nil => cases m <;> simp [vbeqList]
  | cons a l ih =>
    cases m with
    | nil => simp [vbeqList]
    | cons b m =>
      simp only [vbeqList, Bool.and_eq_true]
      rw [H a (by simp) b, ih m (fun x hx y => H x (List.mem_cons_of_mem a hx) y)]
      simp

theorem vbeqPairs_iff (l m : List (Value × Value))
    (H : ∀ p ∈ l, (∀ y, vbeq p.1 y = true ↔ p.1 = y) ∧ (∀ y, vbeq p.2 y = true ↔ p.2 = y)) :
    vbeqPairs l m = true ↔ l = m := by
  induction l generalizing m with
  | nil => cases m <;> simp [vbeqPairs]
  | cons a l ih =>
    cases m with
    | nil => simp [vbeqPairs]
    | cons b m =>
      simp only [vbeqPairs, Bool.and_eq_true]
      rw [(H a (by simp)).1 b.1, (H a (by simp)).2 b.2,
        ih m (fun x hx => H x (List.mem_cons_of_mem a hx))]
      simp [Prod.ext_iff, and_assoc]

theorem vbeq_eq (a b : Value) : vbeq a b = true ↔ a = b := by
  have main : ∀ n (a b : Value), sizeOf a ≤ n → (vbeq a b = true ↔ a = b) := by
    intro n
    induction n with
    | zero =>
      intro a b h
      exfalso
      cases a <;> simp at h
    | succ n ih =>
      intro a b h
      cases a with
      | VInt x => cases b <;> simp [vbeq]
      | VFloat x => cases b <;> simp [vbeq]
      | VStr x => cases b <;> simp [vbeq]
      | VBool x => cases b <;> simp [vbeq]
      | VNone => cases b <;> simp [vbeq]
      | VNoValue => cases b <;> simp [vbeq]
      | VList l =>
        have hsz : sizeOf (Value.VList l) = 1 + sizeOf l := by simp
        have H : ∀ x ∈ l, ∀ y, vbeq x y = true ↔ x = y := by
          intro x hx y
          have h1 : sizeOf x < sizeOf l := List.sizeOf_lt_of_mem hx
          exact ih x y (by omega)
        cases b <;> simp [vbeq, vbeqList_iff l _ H]
      | VTuple l =>
        have hsz : sizeOf (Value.VTuple l) = 1 + sizeOf l := by simp
        have H : ∀ x ∈ l, ∀ y, vbeq x y = true ↔ x = y := by
          intro x hx y
          have h1 : sizeOf x < sizeOf l := List.sizeOf_lt_of_mem hx
          exact ih x y (by omega)
        cases b <;> simp [vbeq, vbeqList_iff l _ H]
      | VSet l =>
        have hsz : sizeOf (Value.VSet l) = 1 + sizeOf l := by simp
        have H : ∀ x ∈ l, ∀ y, vbeq x y = true ↔ x = y := by
          intro x hx y
          have h1 : sizeOf x < sizeOf l := List.sizeOf_lt_of_mem hx
          exact ih x y (by omega)
        cases b <;> simp [vbeq, vbeqList_iff l _ H]
      | VMap l =>
        have hsz : sizeOf (Value.VMap l) = 1 + sizeOf l := by simp
        have H : ∀ p ∈ l, (∀ y, vbeq p.1 y = true ↔ p.1 = y) ∧
            (∀ y, vbeq p.2 y = true ↔ p.2 = y) := by
          intro p hp
          have h1 : sizeOf p < sizeOf l := List.sizeOf_lt_of_mem hp
          have h2 : sizeOf p = 1 + sizeOf p.1 + sizeOf p.2 := by
            obtain ⟨x, y⟩ := p
            simp
          exact ⟨fun y => ih p.1 y (by omega), fun y => ih p.2 y (by omega)⟩
        cases b <;> simp [vbeq, vbeqPairs_iff l _ H]
  exact main (sizeOf a) a b le_rfl

instance : DecidableEq Value := fun a b => decidable_of_iff _ (vbeq_eq a b)

theorem vbeq_decide (a b : Value) : vbeq a b = decide (a = b) := by
  by_cases h : a = b
  · simp [h, (vbeq_eq b b).mpr rfl]
  · have h2 : vbeq a b ≠ true := fun hc => absurd ((vbeq_eq a b).mp hc) h
    simp [h, Bool.not_eq_true] at h2 ⊢
    exact h2

/- ---------- shared helper lemmas ---------- -/

theorem dict_set_forall (d : List (Str × Value)) (k : Str) (v : Value)
    (P : Value → Prop) (hd : ∀ kv ∈ d, P kv.2) (hv : P v) :
    ∀ kv ∈ dict_set d k v, P kv.2 := by
  intro kv hkv
  unfold dict_set at hkv
  by_cases h : d.any (fun kv => kv.1 == k)
  · simp only [h, if_true, List.mem_map] at hkv
    obtain ⟨x, hx, hxe⟩ := hkv
    by_cases hc : (x.1 == k) = true
    · rw [if_pos hc] at hxe
      rw [← hxe]
      exact hv
    · rw [if_neg hc] at hxe
      rw [← hxe]
      exact hd x hx
  · simp only [h, if_false, Bool.false_eq_true, List.mem_append, List.mem_singleton] at hkv
    rcases hkv with hkv | hkv
    · exact hd kv hkv
    · rw [hkv]
      exact hv

theorem dict_update_forall (d e : List (Str × Value)) (P : Value → Prop)
    (hd : ∀ kv ∈ d, P kv.2) (he : ∀ kv ∈ e, P kv.2) :
    ∀ kv ∈ dict_update d e, P kv.2 := by
  induction e generalizing d with
  | nil => exact fun kv hkv => hd kv hkv
  | cons a e ih =>
    have hstep := dict_set_forall d a.1 a.2 P hd (he a (by simp))
    exact ih (dict_set d a.1 a.2) hstep (fun kv hkv => he kv (by simp [hkv]))

theorem get_converters_map (ts : List TypeAnn) :
    get_converters ts = ts.map get_converter := by
  induction ts with
  | nil => rfl
  | cons t ts ih => simp [get_converters, ih]

/-- Dropping on a pointwise-equal predicate. -/
theorem dropWhile_congr {p q : Char → Bool} (h : ∀ c, p c = q c) (l : Str) :
    l.dropWhile p = l.dropWhile q := by
  induction l with
  | nil => rfl
  | cons a l ih => simp only [List.dropWhile_cons, h a, ih]

theorem dropWhile_eq_self_of_head {p : Char → Bool} (l : Str)
    (h : ∀ c ∈ l, p c = false) : l.dropWhile p = l := by
  cases l with
  | nil => rfl
  | cons a l => simp [List.dropWhile_cons, h a (by simp)]

theorem stripSet_eq_self (s chars : Str) (h : ∀ c ∈ s, chars.contains c = false) :
    stripSet s chars = s := by
  unfold stripSet
  rw [dropWhile_eq_self_of_head s h,
    dropWhile_eq_self_of_head s.reverse (fun c hc => h c (List.mem_reverse.mp hc)),
    List.reverse_reverse]

theorem stripWS_eq_self (s : Str) (h : ∀ c ∈ s, c.isWhitespace = false) :
    stripWS s = s := by
  unfold stripWS
  rw [dropWhile_eq_self_of_head s h,
    dropWhile_eq_self_of_head s.reverse (fun c hc => h c (List.mem_reverse.mp hc)),
    List.reverse_reverse]

/- ---------- C6 ---------- -/

/-- C6: the keyword-argument mapping passed to the callable never
contains the NoValue sentinel: sentinel entries are dropped from the
parsed namespace before the nested-record results (themselves free of
the sentinel) are merged in. -/
theorem claim_C6 (ns sub_kwargs : List (Str × Value))
    (h : ∀ kv ∈ sub_kwargs, isNoValue kv.2 = false) :
    ∀ kv ∈ final_kwargs ns sub_kwargs, isNoValue kv.2 = false := by
  unfold final_kwargs
  refine dict_update_forall _ sub_kwargs (fun v => isNoValue v = false)
    (fun kv hkv => ?_) h
  have := (List.mem_filter.mp hkv).2
  simpa using this

theorem claim_C6_witness : isNoValue (.VInt 2) = false :=
  claim_C6 [("a".data, .VNoValue), ("x".data, .VInt 1)] [("b".data, .VInt 2)]
    (by decide) ("b".data, .VInt 2) (by decide)

/- ---------- C7 ---------- -/

/-- C7: the tuple converter splits on commas and, when the number of
parts differs from the number of component types, fails with the
arity error reporting both the expected types and the actual parts;
when the counts match it converts the parts positionally with each
component converter.  Concretely, `Tuple[int, str]` on "1,2,3" fails
with that error and on "1,a" converts positionally. -/
theorem claim_C7 :
    (∀ (ts : List TypeAnn) (s : Str),
      (splitOnChar ',' s).length ≠ ts.length →
      convert (.tupleT ts) s = .error (.tupleArityError ts (splitOnChar ',' s))) ∧
    (∀ (ts : List TypeAnn) (s : Str),
      (splitOnChar ',' s).length = ts.length →
      convert (.tupleT ts) s =
        (zipApply (ts.map get_converter) (splitOnChar ',' s)).map .VTuple) ∧
    convert (.tupleT [.intT, .strT]) "1,2,3".data =
      .error (.tupleArityError [.intT, .strT] ["1".data, "2".data, "3".data]) ∧
    convert (.tupleT [.intT, .strT]) "1,a".data =
      .ok (.VTuple [.VInt 1, .VStr "a".data]) := by
  refine ⟨fun ts s h => ?_, fun ts s h => ?_, by rfl, by rfl⟩
  · simp only [convert, get_converter, if_neg h]
  · simp only [convert, get_converter, if_pos h, get_converters_map]

theorem claim_C7_witness :
    convert (.tupleT [.intT]) "4,5".data =
      .error (.tupleArityError [.intT] ["4".data, "5".data]) ∧
    convert (.tupleT [.intT, .intT]) "4,5".data =
      (zipApply ([TypeAnn.intT, TypeAnn.intT].map get_converter)
        (splitOnChar ',' "4,5".data)).map .VTuple :=
  ⟨claim_C7.1 [.intT] "4,5".data (by decide),
    claim_C7.2.1 [.intT, .intT] "4,5".data (by decide)⟩

/- ---------- C8 ---------- -/

/-- C8 counterexample: with callable parameters just `a` and no
catch-all keyword parameter, a default-override keyed by `b` — a name
that is not a parameter — does NOT fail at construction: `__init__`
succeeds and simply builds the descriptors, refuting the claim that
every externally supplied override mapping is validated. -/
theorem claim_C8_cex :
    auto_arg_parser_init ["a".data] false none none
      (some [("b".data, .VInt 7)]) [.VNoValue] =
      .ok [{ name := "a".data, default := .VNoValue }] ∧
    ¬ ("b".data ∈ ["a".data]) :=
  ⟨rfl, by decide⟩

/-- C8 amended: at construction time, when the callable has no
catch-all keyword parameter, short-name override keys and arg-converter
override keys must name existing parameters (the offending keys are
reported), but default-override keys are never validated: construction
succeeds for any default-override mapping, and an entry whose key names
no parameter has no effect on the built descriptors. -/
theorem claim_C8_amended :
    (∀ (fnArgs ks : List Str) (conv : Option (List Str))
      (dov : Option (List (Str × Value))) (ds : List Value),
      ks.filter (fun k => !fnArgs.contains k) ≠ [] →
      auto_arg_parser_init fnArgs false (some ks) conv dov ds =
        .error (.shortNamesNotArgs (ks.filter (fun k => !fnArgs.contains k)))) ∧
    (∀ (fnArgs ks : List Str) (dov : Option (List (Str × Value))) (ds : List Value),
      ks.filter (fun k => !fnArgs.contains k) ≠ [] →
      auto_arg_parser_init fnArgs false none (some ks) dov ds =
        .error (.convertersNotArgs (ks.filter (fun k => !fnArgs.contains k)))) ∧
    (∀ (fnArgs : List Str) (hasV : Bool) (dov : List (Str × Value)) (ds : List Value),
      auto_arg_parser_init fnArgs hasV none none (some dov) ds =
        .ok (build_argspecs fnArgs ds (some dov))) ∧
    (∀ (fnArgs : List Str) (ds : List Value) (k : Str) (v : Value)
      (m : List (Str × Value)), k ∉ fnArgs →
      build_argspecs fnArgs ds (some ((k, v) :: m)) =
        build_argspecs fnArgs ds (some m)) := by
  refine ⟨fun fnArgs ks conv dov ds h => ?_, fun fnArgs ks dov ds h => ?_,
    fun fnArgs hasV dov ds => ?_, fun fnArgs ds k v m hk => ?_⟩
  · have hfe : (ks.filter (fun k => !fnArgs.contains k)).isEmpty = false := by
      cases hfe : (ks.filter (fun k => !fnArgs.contains k)).isEmpty
      · rfl
      · exact absurd (List.isEmpty_iff.mp hfe) h
    simp only [auto_arg_parser_init, Bool.false_eq_true, if_false, hfe]
    rfl
  · have hfe : (ks.filter (fun k => !fnArgs.contains k)).isEmpty = false := by
      cases hfe : (ks.filter (fun k => !fnArgs.contains k)).isEmpty
      · rfl
      · exact absurd (List.isEmpty_iff.mp hfe) h
    simp only [auto_arg_parser_init, Bool.false_eq_true, if_false, hfe]
    rfl
  · cases hasV <;> rfl
  · induction fnArgs generalizing ds with
    | nil => rfl
    | cons n rest ih =>
      cases ds with
      | nil => rfl
      | cons d ds' =>
        have hkn : (k == n) = false := by
          have : k ≠ n := fun he => hk (by simp [he])
          simpa using this
        have htail := ih ds' (fun hm => hk (List.mem_cons_of_mem n hm))
        simp only [build_argspecs, List.zipWith_cons_cons, lookupStr, hkn,
          Bool.false_eq_true, if_false] at htail ⊢
        rw [htail]

theorem claim_C8_amended_witness :
    auto_arg_parser_init ["a".data] false (some ["z".data]) none none [] =
      .error (.shortNamesNotArgs ["z".data]) ∧
    auto_arg_parser_init ["a".data] false none (some ["w".data]) none [] =
      .error (.convertersNotArgs ["w".data]) ∧
    auto_arg_parser_init ["a".data] false none none
      (some [("b".data, .VInt 7)]) [.VInt 0] =
      .ok (build_argspecs ["a".data] [.VInt 0] (some [("b".data, .VInt 7)])) ∧
    build_argspecs ["a".data] [.VInt 0] (some [("b".data, .VInt 7)]) =
      build_argspecs ["a".data] [.VInt 0] (some []) :=
  ⟨claim_C8_amended.1 ["a".data] ["z".data] none none [] (by decide),
    claim_C8_amended.2.1 ["a".data] ["w".data] none [] (by decide),
    claim_C8_amended.2.2.1 ["a".data] false [("b".data, .VInt 7)] [.VInt 0],
    claim_C8_amended.2.2.2 ["a".data] [.VInt 0] "b".data (.VInt 7) [] (by decide)⟩

/- ---------- C10 ---------- -/

theorem digit_not_ws (c : Char) (h : c.isDigit = true) : c.isWhitespace = false := by
  unfold Char.isWhitespace
  unfold Char.isDigit at h
  simp only [Bool.and_eq_true, decide_eq_true_eq] at h
  obtain ⟨h1, h2⟩ := h
  simp only [Bool.or_eq_false_iff, decide_eq_false_iff_not]
  refine ⟨⟨⟨fun he => ?_, fun he => ?_⟩, fun he => ?_⟩, fun he => ?_⟩ <;>
    (subst he; revert h1 h2; decide)

/-- An all-digit, nonempty string parses as a float. -/
theorem pythonFloat_digits (s : Str) (hne : s ≠ [])
    (hd : ∀ c ∈ s, c.isDigit = true) :
    pythonFloat s = .ok { mantissa := (natOfDigits s : Int), shift := 0 } := by
  have hws : stripWS s = s :=
    stripWS_eq_self s (fun c hc => digit_not_ws c (hd c hc))
  cases s with
  | nil => exact absurd rfl hne
  | cons c rest =>
    have hc : c.isDigit = true := hd c (by simp)
    unfold pythonFloat
    rw [hws]
    have hcm : c ≠ '-' := by
      intro he
      rw [he] at hc
      exact absurd hc (by decide)
    have hcp : c ≠ '+' := by
      intro he
      rw [he] at hc
      exact absurd hc (by decide)
    have htake : (c :: rest).takeWhile Char.isDigit = c :: rest :=
      List.takeWhile_eq_self_iff.mpr hd
    have hdrop : (c :: rest).dropWhile Char.isDigit = [] :=
      List.dropWhile_eq_nil_iff.mpr hd
    split
    · rename_i r heq
      exfalso
      exact hcm (by injection heq.symm with h1 _; exact h1.symm)
    · rename_i r heq
      exfalso
      exact hcp (by injection heq.symm with h1 _; exact h1.symm)
    · unfold parseUnsignedFloat
      rw [htake, hdrop]
      simp

/-- C10: the best-effort guesser is not total: whenever the input
consists, after removing leading minus signs, only of digits and dots
but is not a valid float literal, the float branch is selected and the
ValueError of `float()` propagates instead of falling through to the
string branches. -/
theorem claim_C10 (s : Str)
    (hchars : ∀ c ∈ lstripSet s ['-'], c ∈ floatGuessChars)
    (hbad : pythonFloat s = .error (.floatError s)) :
    parse_string_guessing_type s = .error (.floatError s) := by
  have hsplit : ∀ c ∈ s, c = '-' ∨ c ∈ floatGuessChars := by
    intro c hc
    rw [← List.takeWhile_append_dropWhile (p := fun c => (['-'] : Str).contains c) (l := s),
      List.mem_append] at hc
    rcases hc with hc | hc
    · left
      have := List.mem_takeWhile_imp hc
      simpa using this
    · right
      exact hchars c hc
  have hguessspace : ∀ c ∈ floatGuessChars, (([' '] : Str).contains c) = false := by
    decide
  have hnospace : stripSet s [' '] = s := by
    refine stripSet_eq_self s [' '] (fun c hc => ?_)
    rcases hsplit c hc with h | h
    · rw [h]; decide
    · exact hguessspace c h
  have hnum : isnumericStr s = false := by
    cases hn : isnumericStr s
    · rfl
    · exfalso
      unfold isnumericStr at hn
      simp only [Bool.and_eq_true, List.all_eq_true] at hn
      obtain ⟨h1, h2⟩ := hn
      have hne : s ≠ [] := by
        intro he
        rw [he] at h1
        exact absurd h1 (by decide)
      have := pythonFloat_digits s hne h2
      rw [hbad] at this
      exact Except.noConfusion this
  have hfloat : (s.dropWhile (fun c => c == '-')).all
      (fun c => floatGuessChars.contains c) = true := by
    rw [List.all_eq_true]
    intro c hc
    have hc' : c ∈ lstripSet s ['-'] := by
      unfold lstripSet
      rw [dropWhile_congr (q := fun c => c == '-')
        (fun c => by by_cases h : c = '-' <;> simp [h])]
      exact hc
    have := hchars c hc'
    exact List.elem_iff.mpr this
  unfold parse_string_guessing_type
  rw [hnospace]
  simp only [hnum, hfloat, Bool.false_eq_true, if_false, if_true, hbad,
    Except.map]

theorem claim_C10_witness :
    parse_string_guessing_type "1.2.3".data = .error (.floatError "1.2.3".data) :=
  claim_C10 "1.2.3".data (by decide) (by rfl)

/- ---------- C2 ---------- -/

theorem firstOk_findSome (arms : List TypeAnn) (s : Str) :
    firstOk (get_converters arms) s =
      arms.findSome? (fun t => (get_converter t s).toOption) := by
  induction arms with
  | nil => rfl
  | cons t ts ih =>
    simp only [get_converters, firstOk, List.findSome?_cons]
    cases get_converter t s <;> simp [Except.toOption, ih]

/-- C2: the union converter returns None exactly for the literal
string "None" when some arm is NoneType; otherwise it returns the first
successful arm conversion in declared order, or an error carrying all
arms when every arm fails.  Concretely, against
`Union[int, float, Sequence[int]]`: "54" converts as int 54, "3.14" as
the float reading 3.14, "54,32,23" as the sequence [54, 32, 23], and
"3.14,32,23" fails with the error listing all three arms. -/
theorem claim_C2 :
    (∀ (arms : List TypeAnn) (s : Str),
      s = "None".data → hasNoneT arms = true →
      convert (.unionT arms) s = .ok .VNone) ∧
    (∀ (arms : List TypeAnn) (s : Str),
      ¬(s = "None".data ∧ hasNoneT arms = true) →
      convert (.unionT arms) s =
        (match arms.findSome? (fun t => (get_converter t s).toOption) with
         | some v => .ok v
         | none => .error (.unionError s arms))) ∧
    convert (.unionT [.intT, .floatT, .seqT .intT]) "54".data = .ok (.VInt 54) ∧
    convert (.unionT [.intT, .floatT, .seqT .intT]) "3.14".data =
      .ok (.VFloat { mantissa := 314, shift := 2 }) ∧
    convert (.unionT [.intT, .floatT, .seqT .intT]) "54,32,23".data =
      .ok (.VList [.VInt 54, .VInt 32, .VInt 23]) ∧
    convert (.unionT [.intT, .floatT, .seqT .intT]) "3.14,32,23".data =
      .error (.unionError "3.14,32,23".data [.intT, .floatT, .seqT .intT]) := by
  refine ⟨fun arms s h1 h2 => ?_, fun arms s h => ?_, ?_, ?_, ?_, ?_⟩
  · simp only [convert, get_converter, if_pos (And.intro h1 h2)]
  · simp only [convert, get_converter, if_neg h, firstOk_findSome]
  · rfl
  · rfl
  · rfl
  · rfl

theorem claim_C2_witness :
    convert (.unionT [.intT, .noneT]) "None".data = .ok .VNone ∧
    convert (.unionT [.intT, .noneT]) "7".data =
      (match [TypeAnn.intT, TypeAnn.noneT].findSome?
          (fun t => (get_converter t "7".data).toOption) with
       | some v => .ok v
       | none => .error (.unionError "7".data [TypeAnn.intT, TypeAnn.noneT])) :=
  ⟨claim_C2.1 [.intT, .noneT] "None".data rfl (by decide),
    claim_C2.2.1 [.intT, .noneT] "7".data (by simp)⟩

/- ---------- C4 ---------- -/

theorem mkNamedTok_eq_pre_append (name v : Str) :
    mkNamedTok name v = ('-' :: '-' :: name ++ ['=']) ++ v := by
  simp [mkNamedTok]

theorem detect_named_false (name v : Str) :
    detect_is_flag name none [mkNamedTok name v] = false := by
  have hm : '=' ∈ mkNamedTok name v := by simp [mkNamedTok]
  have hc : (mkNamedTok name v).contains '=' = true := List.elem_iff.mpr hm
  simp only [detect_is_flag, hc]
  simp

theorem find_eq_value_named (name v : Str) :
    find_eq_value name [mkNamedTok name v] = some v := by
  have hpre : (('-' :: '-' :: name ++ ['=']) : Str).isPrefixOf
      (('-' :: '-' :: name ++ ['=']) ++ v) = true := by
    rw [List.isPrefixOf_iff_prefix]
    exact List.prefix_append _ _
  simp only [find_eq_value, mkNamedTok_eq_pre_append, hpre, if_pos]
  rw [List.drop_left]

theorem parse_bool_arg_named (name v : Str) (dflt : Bool) :
    parse_bool_arg [mkNamedTok name v] name dflt = (str2bool v).map .VBool := by
  unfold parse_bool_arg
  rw [detect_named_false, find_eq_value_named]
  simp

theorem str2bool_truthy (v : Str) (h : v.map Char.toLower ∈ truthyStrings) :
    str2bool v = .ok true := by
  unfold str2bool
  rw [if_pos (List.elem_iff.mpr h)]

theorem str2bool_falsy (v : Str) (h : v.map Char.toLower ∈ falsyStrings) :
    str2bool v = .ok false := by
  have hnott : truthyStrings.contains (v.map Char.toLower) = false := by
    simp only [falsyStrings, List.mem_cons, List.mem_singleton,
      List.not_mem_nil, or_false] at h
    rcases h with h | h | h | h | h <;> rw [h] <;> decide
  have hnt : (v.map Char.toLower) ∉ truthyStrings := by
    intro hmem
    have h2 := List.elem_iff.mpr hmem
    simp only [List.contains] at hnott
    rw [hnott] at h2
    exact Bool.noConfusion h2
  simp [str2bool, hnt, h]

/-- C4: for `negate: bool = False`, the bare token `--negate` (at the
end, or followed by another flag token) parses as True; `--negate=v`
parses with `str2bool`, giving True for any letter case of the truthy
words, False for any letter case of the falsy words, and an
ArgumentConversionError carrying the offending string otherwise
(e.g. for `--negate=2`). -/
theorem claim_C4 :
    parse_bool_arg ["--negate".data] "negate".data false = .ok (.VBool true) ∧
    parse_bool_arg ["--negate".data, "--other".data] "negate".data false =
      .ok (.VBool true) ∧
    (∀ v : Str, v.map Char.toLower ∈ truthyStrings →
      parse_bool_arg [mkNamedTok "negate".data v] "negate".data false =
        .ok (.VBool true)) ∧
    (∀ v : Str, v.map Char.toLower ∈ falsyStrings →
      parse_bool_arg [mkNamedTok "negate".data v] "negate".data false =
        .ok (.VBool false)) ∧
    parse_bool_arg ["--negate=2".data] "negate".data false =
      .error (.boolError "2".data) := by
  refine ⟨by rfl, by rfl, fun v hv => ?_, fun v hv => ?_, by rfl⟩
  · rw [parse_bool_arg_named, str2bool_truthy v hv]
    rfl
  · rw [parse_bool_arg_named, str2bool_falsy v hv]
    rfl

theorem claim_C4_witness :
    parse_bool_arg [mkNamedTok "negate".data "TrUe".data] "negate".data false =
      .ok (.VBool true) ∧
    parse_bool_arg [mkNamedTok "negate".data "No".data] "negate".data false =
      .ok (.VBool false) :=
  ⟨claim_C4.2.2.1 "TrUe".data (by decide), claim_C4.2.2.2.1 "No".data (by decide)⟩

/- ---------- C1 ---------- -/

theorem promote_all_positional (names values : List Str)
    (hlen : values.length = names.length)
    (hvals : ∀ v ∈ values, is_argument_key v = false) :
    promote values names = List.zipWith mkNamedTok names values := by
  induction values generalizing names with
  | nil =>
    cases names with
    | nil => rfl
    | cons n ns => exact absurd hlen (by simp)
  | cons v vs ih =>
    cases names with
    | nil => exact absurd hlen (by simp)
    | cons n ns =>
      simp only [promote, hvals v (by simp), Bool.false_eq_true, if_false,
        List.zipWith_cons_cons]
      rw [ih ns (by simpa using hlen) (fun v hv => hvals v (by simp [hv]))]

theorem mkNamedTok_is_key (name v : Str) (hne : name ≠ [])
    (hhead : keyStripChars.contains name.headI = false) :
    is_argument_key (mkNamedTok name v) = true := by
  cases name with
  | nil => exact absurd rfl hne
  | cons c cs =>
    simp only [List.headI] at hhead
    have hdash : '-' ∈ keyStripChars := by decide
    have hm : c ∉ keyStripChars := by
      intro hmem
      have h2 := List.elem_iff.mpr hmem
      simp only [List.contains] at hhead
      rw [hhead] at h2
      exact Bool.noConfusion h2
    simp [is_argument_key, mkNamedTok, lstripSet, List.dropWhile_cons,
      hdash, hm]

theorem promote_named_fixed (names values : List Str)
    (hnames : ∀ n ∈ names, n ≠ [] ∧ keyStripChars.contains n.headI = false) :
    promote (List.zipWith mkNamedTok names values) names =
      List.zipWith mkNamedTok names values := by
  cases names with
  | nil => cases values <;> rfl
  | cons n ns =>
    cases values with
    | nil => rfl
    | cons v vs =>
      obtain ⟨hne, hhead⟩ := hnames n (by simp)
      simp only [List.zipWith_cons_cons, promote, mkNamedTok_is_key n v hne hhead,
        if_true]

/-- C1: over primitive-typed parameters, parsing bare positional values
given in declaration order yields the same keyword-argument mapping as
parsing the corresponding `--name=value` tokens: positional promotion
rewrites the former into exactly the latter, and promotion leaves the
named form unchanged, so the flag primitive sees identical token
lists. -/
theorem claim_C1 (params : List (Str × TypeAnn × Value)) (values : List Str)
    (hlen : values.length = params.length)
    (hvals : ∀ v ∈ values, is_argument_key v = false)
    (hnames : ∀ p ∈ params, p.1 ≠ [] ∧ keyStripChars.contains p.1.headI = false)
    (_hprim : ∀ p ∈ params,
      p.2.1 = .intT ∨ p.2.1 = .floatT ∨ p.2.1 = .strT ∨ p.2.1 = .boolT) :
    parse_kwargs params values =
      parse_kwargs params
        (List.zipWith mkNamedTok (params.map (fun p => p.1)) values) := by
  unfold parse_kwargs
  have h1 : promote values (params.map (fun p => p.1)) =
      List.zipWith mkNamedTok (params.map (fun p => p.1)) values :=
    promote_all_positional _ _ (by simpa using hlen) hvals
  have h2 : promote (List.zipWith mkNamedTok (params.map (fun p => p.1)) values)
      (params.map (fun p => p.1)) =
      List.zipWith mkNamedTok (params.map (fun p => p.1)) values := by
    refine promote_named_fixed _ _ (fun n hn => ?_)
    obtain ⟨p, hp, rfl⟩ := List.mem_map.mp hn
    exact hnames p hp
  rw [h1, h2]

theorem claim_C1_witness :
    parse_kwargs [("a".data, .intT, .VNoValue), ("b".data, .intT, .VNoValue)]
        ["4".data, "5".data] =
      parse_kwargs [("a".data, .intT, .VNoValue), ("b".data, .intT, .VNoValue)]
        (List.zipWith mkNamedTok ["a".data, "b".data] ["4".data, "5".data]) :=
  claim_C1 [("a".data, .intT, .VNoValue), ("b".data, .intT, .VNoValue)]
    ["4".data, "5".data] (by decide) (by decide) (by decide)
    (by intro p hp; fin_cases hp <;> simp)

/- ---------- C3 ---------- -/

/-- C3 counterexample: on "a(b)c" split at commas with bracket
stripping, the parenthesis pair does not wrap the whole segment, yet the
splitter still drops it: the output is ["abc"], not ["a(b)c"] as the
claim (brackets kept verbatim unless they enclose the entire segment)
predicts. -/
theorem claim_C3_cex :
    bracketed_split "a(b)c".data ',' true none = .ok ["abc".data] ∧
    ["abc".data] ≠ ["a(b)c".data] :=
  ⟨rfl, by decide⟩

/-- C3 amended: with `strip_brackets` set, an opening bracket is
dropped exactly when it takes the depth from 0 to 1 and a matching
closing bracket exactly when it returns the depth to 0, wherever the
pair lies inside the accumulating segment; brackets opened or closed at
depth at least 1 are kept verbatim.  Concretely "a(b)c" splits to
["abc"] while the nested pair in "a[(b)]c" is kept, giving
["a(b)c"]. -/
theorem claim_C3_amended :
    (∀ (d : Char) (m : Option Nat) (st : SplitSt) (c : Char),
      openerChars.contains c = true → st.stack = [] →
      bsStep d true m st c = .ok { st with stack := [c] }) ∧
    (∀ (d : Char) (m : Option Nat) (st : SplitSt) (c o : Char),
      closerChars.contains c = true → st.stack = [o] → closerFor o = c →
      bsStep d true m st c = .ok { st with stack := [] }) ∧
    (∀ (d : Char) (m : Option Nat) (st : SplitSt) (c : Char),
      openerChars.contains c = true → st.stack ≠ [] →
      bsStep d true m st c =
        .ok { st with stack := c :: st.stack, current := st.current ++ [c] }) ∧
    (∀ (d : Char) (m : Option Nat) (st : SplitSt) (c o : Char) (rest : List Char),
      closerChars.contains c = true → st.stack = o :: rest → rest ≠ [] →
      closerFor o = c →
      bsStep d true m st c =
        .ok { st with stack := rest, current := st.current ++ [c] }) ∧
    bracketed_split "a(b)c".data ',' true none = .ok ["abc".data] ∧
    bracketed_split "a[(b)]c".data ',' true none = .ok ["a(b)c".data] := by
  refine ⟨fun d m st c hc hst => ?_, fun d m st c o hc hst hm => ?_,
    fun d m st c hc hst => ?_, fun d m st c o rest hc hst hrest hm => ?_,
    by rfl, by rfl⟩
  · simp only [List.contains] at hc
    have hcm : c ∈ openerChars := List.elem_iff.mp hc
    simp only [openerChars, List.mem_cons, List.not_mem_nil, or_false] at hcm
    rcases hcm with rfl | rfl | rfl | rfl <;>
      simp [bsStep, openerChars, closerChars, hst]
  · simp only [List.contains] at hc
    have hcm : c ∈ closerChars := List.elem_iff.mp hc
    simp only [closerChars, List.mem_cons, List.not_mem_nil, or_false] at hcm
    rcases hcm with rfl | rfl | rfl | rfl <;>
      simp [bsStep, openerChars, closerChars, hst, hm]
  · have hne : st.stack.isEmpty = false := by
      cases hs : st.stack
      · exact absurd hs hst
      · rfl
    simp only [List.contains] at hc
    have hcm : c ∈ openerChars := List.elem_iff.mp hc
    simp only [openerChars, List.mem_cons, List.not_mem_nil, or_false] at hcm
    rcases hcm with rfl | rfl | rfl | rfl <;>
      simp [bsStep, openerChars, closerChars, hne, bsAppendOrYield]
  · have hne : rest.isEmpty = false := by
      cases hs : rest
      · exact absurd hs hrest
      · rfl
    simp only [List.contains] at hc
    have hcm : c ∈ closerChars := List.elem_iff.mp hc
    simp only [closerChars, List.mem_cons, List.not_mem_nil, or_false] at hcm
    rcases hcm with rfl | rfl | rfl | rfl <;>
      simp [bsStep, openerChars, closerChars, hst, hm, hne, hrest, bsAppendOrYield]

theorem claim_C3_amended_witness :
    bsStep ',' true none ⟨[], "xy".data, 0, []⟩ '(' =
      .ok ⟨['('], "xy".data, 0, []⟩ ∧
    bsStep ',' true none ⟨['('], "xy".data, 0, []⟩ ')' =
      .ok ⟨[], "xy".data, 0, []⟩ ∧
    bsStep ',' true none ⟨['('], "xy".data, 0, []⟩ '[' =
      .ok ⟨['[', '('], "xy[".data, 0, []⟩ ∧
    bsStep ',' true none ⟨['[', '('], "xy".data, 0, []⟩ ']' =
      .ok ⟨['('], "xy]".data, 0, []⟩ :=
  ⟨claim_C3_amended.1 ',' none ⟨[], "xy".data, 0, []⟩ '(' (by decide) rfl,
    claim_C3_amended.2.1 ',' none ⟨['('], "xy".data, 0, []⟩ ')' '(' (by decide)
      rfl (by decide),
    claim_C3_amended.2.2.1 ',' none ⟨['('], "xy".data, 0, []⟩ '[' (by decide)
      (by decide),
    claim_C3_amended.2.2.2.1 ',' none ⟨['[', '('], "xy".data, 0, []⟩ ']' '['
      ['('] (by decide) rfl (by decide) (by decide)⟩

/- ---------- C5 ---------- -/

theorem go_flag_true (name : Str) (short : Option Str) (a : Str) (rest : List Str) :
    separate_subargs_go name short (a :: rest) true =
      (if is_argument_key a then separate_subargs_go name short (a :: rest) false
       else ((a :: (separate_subargs_go name short rest false).1),
         (separate_subargs_go name short rest false).2)) := by
  by_cases hk : is_argument_key a
  · simp [separate_subargs_go, hk]
  · simp [separate_subargs_go, hk]

theorem go_cons_keeper (name : Str) (short : Option Str) (a : Str) (rest : List Str)
    (hk : is_argument_key a = true) (hm : matchesSubPre name short a = true) :
    separate_subargs_go name short (a :: rest) false =
      ((subRewrite name short a) :: (separate_subargs_go name short rest true).1,
        (separate_subargs_go name short rest true).2) := by
  by_cases hf : (fullPre name).isPrefixOf a
  · simp [separate_subargs_go, hk, hf, subRewrite]
  · unfold matchesSubPre at hm
    cases short with
    | none => simp [hf] at hm
    | some sn =>
      simp only [hf, Bool.false_or] at hm
      simp [separate_subargs_go, hk, hf, hm, subRewrite]

theorem go_cons_rem (name : Str) (short : Option Str) (a : Str) (rest : List Str)
    (h : ¬(is_argument_key a = true ∧ matchesSubPre name short a = true)) :
    separate_subargs_go name short (a :: rest) false =
      ((separate_subargs_go name short rest false).1,
        a :: (separate_subargs_go name short rest false).2) := by
  by_cases hk : is_argument_key a
  · have hm : matchesSubPre name short a = false := by
      cases hmm : matchesSubPre name short a
      · rfl
      · exact absurd ⟨hk, hmm⟩ h
    unfold matchesSubPre at hm
    by_cases hf : (fullPre name).isPrefixOf a
    · rw [hf] at hm
      simp at hm
    · cases short with
      | none => simp [separate_subargs_go, hk, hf]
      | some sn =>
        simp only [hf, Bool.false_or] at hm
        simp [separate_subargs_go, hk, hf, hm]
  · simp [separate_subargs_go, hk]

/-- C5: the sub-namespace router of the source equals the routing
transform as the specification states it: a key token matching
`--name.` or `-short.` is rewritten to `--rest` and routed to the
sub-tokens; a non-key token immediately following such a key is routed
to the sub-tokens as its value; every other token goes to the remaining
tokens; relative order is preserved in both outputs. -/
theorem claim_C5 (args : List Str) (name : Str) (short : Option Str) :
    separate_subargs_under_name args name short = route_spec name short args := by
  unfold separate_subargs_under_name
  have main : ∀ (n : Nat) (args : List Str), args.length ≤ n →
      separate_subargs_go name short args false = route_spec name short args := by
    intro n
    induction n with
    | zero =>
      intro args h
      cases args with
      | nil => simp [separate_subargs_go, route_spec]
      | cons a rest => simp at h
    | succ n ih =>
      intro args h
      cases args with
      | nil => simp [separate_subargs_go, route_spec]
      | cons a rest =>
        by_cases hk : is_argument_key a
        · by_cases hm : matchesSubPre name short a
          · rw [go_cons_keeper name short a rest hk hm]
            cases rest with
            | nil =>
              simp [route_spec, hk, hm, separate_subargs_go]
            | cons b rest2 =>
              rw [go_flag_true]
              by_cases hkb : is_argument_key b
              · rw [if_pos hkb, ih (b :: rest2) (by simpa using Nat.le_of_succ_le_succ (by simpa using h))]
                simp [route_spec, hk, hm, hkb]
              · rw [if_neg hkb, ih rest2 (by simp at h; omega)]
                simp [route_spec, hk, hm, hkb]
          · have hmf : matchesSubPre name short a = false := by
              cases hmm : matchesSubPre name short a
              · rfl
              · exact absurd hmm hm
            rw [go_cons_rem name short a rest
              (fun hc => by rw [hmf] at hc; exact Bool.noConfusion hc.2)]
            rw [ih rest (by simp at h; omega)]
            conv_rhs => rw [route_spec.eq_def]
            simp [hk, hmf]
        · have hkf : is_argument_key a = false := by
            cases hkk : is_argument_key a
            · rfl
            · exact absurd hkk hk
          rw [go_cons_rem name short a rest
            (fun hc => by rw [hkf] at hc; exact Bool.noConfusion hc.1)]
          rw [ih rest (by simp at h; omega)]
          conv_rhs => rw [route_spec.eq_def]
          simp [hkf]
  exact main args.length args le_rfl

/- ---------- C9 ---------- -/

/-- The value at the last occurrence of a key among the raw converted
pairs (the behavior C9 states for duplicated keys). -/
def listLastAssoc (ps : List (Value × Value)) (k : Value) : Option Value :=
  ((ps.filter (fun p => decide (p.1 = k))).getLast?).map (fun p => p.2)

/-- First occurrences of the keys, in encounter order, relative to the
keys already seen. -/
def firstOccAux (seen : List Value) : List Value → List Value
  | [] => []
  | k :: ks =>
    if k ∈ seen then firstOccAux seen ks
    else k :: firstOccAux (seen ++ [k]) ks

/-- The keys of the raw pair list, first occurrence of each, in
encounter order. -/
def firstOccurrences (ks : List Value) : List Value :=
  firstOccAux [] ks

theorem getLast?_cons_or (l : List (Value × Value)) (a : Value × Value) :
    (a :: l).getLast? = l.getLast?.or (some a) := by
  induction l generalizing a with
  | nil => simp
  | cons b m ih =>
    rw [List.getLast?_cons_cons, ih b]
    cases m.getLast? <;> simp

theorem odGet_replace_eq (d : List (Value × Value)) (k v : Value)
    (hany : d.any (fun kv => vbeq kv.1 k) = true) :
    odGet (d.map (fun kv => if vbeq kv.1 k then (kv.1, v) else kv)) k = some v := by
  induction d with
  | nil => simp at hany
  | cons a d ih =>
    cases ha : vbeq a.1 k with
    | true =>
      simp only [List.map_cons, ha, if_true, odGet, List.find?_cons, ha]
      rfl
    | false =>
      have hany' : d.any (fun kv => vbeq kv.1 k) = true := by
        simp only [List.any_cons, ha, Bool.false_or] at hany
        exact hany
      simp only [List.map_cons, ha, Bool.false_eq_true, if_false, odGet,
        List.find?_cons, ha]
      exact ih hany'

theorem odGet_replace_ne (d : List (Value × Value)) (kr v k : Value)
    (hne : k ≠ kr) :
    odGet (d.map (fun kv => if vbeq kv.1 kr then (kv.1, v) else kv)) k =
      odGet d k := by
  induction d with
  | nil => rfl
  | cons a d ih =>
    cases ha : vbeq a.1 k with
    | true =>
      have hak : a.1 = k := (vbeq_eq a.1 k).mp ha
      have har : vbeq a.1 kr = false := by
        rw [vbeq_decide]
        simp [hak, hne]
      simp only [List.map_cons, har, Bool.false_eq_true, if_false, odGet,
        List.find?_cons, ha]
    | false =>
      cases har : vbeq a.1 kr with
      | true =>
        simp only [List.map_cons, har, if_true, odGet, List.find?_cons, ha]
        exact ih
      | false =>
        simp only [List.map_cons, har, Bool.false_eq_true, if_false, odGet,
          List.find?_cons, ha]
        exact ih

theorem odGet_append_single (d : List (Value × Value)) (kr v k : Value) :
    odGet (d ++ [(kr, v)]) k =
      (odGet d k).or (if k = kr then some v else none) := by
  induction d with
  | nil =>
    simp only [List.nil_append, odGet, List.find?_cons, List.find?_nil]
    cases ha : vbeq kr k with
    | true =>
      have := (vbeq_eq kr k).mp ha
      simp [this.symm]
    | false =>
      have : ¬(kr = k) := fun he => by
        rw [(vbeq_eq kr k).mpr he] at ha
        exact Bool.noConfusion ha
      have hkk : ¬(k = kr) := fun he => this he.symm
      simp [odGet, hkk]
  | cons a d ih =>
    cases ha : vbeq a.1 k with
    | true =>
      simp only [List.cons_append, odGet, List.find?_cons, ha]
      simp
    | false =>
      simp only [List.cons_append, odGet, List.find?_cons, ha]
      exact ih

theorem odGet_none_of_any_false (d : List (Value × Value)) (k : Value)
    (hany : d.any (fun kv => vbeq kv.1 k) = false) :
    odGet d k = none := by
  induction d with
  | nil => rfl
  | cons a d ih =>
    simp only [List.any_cons, Bool.or_eq_false_iff] at hany
    simp only [odGet, List.find?_cons, hany.1]
    exact ih hany.2

theorem odGet_odInsert (d : List (Value × Value)) (kr v k : Value) :
    odGet (odInsert d kr v) k = if k = kr then some v else odGet d k := by
  unfold odInsert
  cases hany : d.any (fun kv => vbeq kv.1 kr) with
  | true =>
    simp only [if_true]
    by_cases hk : k = kr
    · subst hk
      rw [odGet_replace_eq d k v hany, if_pos rfl]
    · rw [odGet_replace_ne d kr v k hk, if_neg hk]
  | false =>
    simp only [Bool.false_eq_true, if_false]
    rw [odGet_append_single]
    by_cases hk : k = kr
    · subst hk
      rw [odGet_none_of_any_false d k hany]
      simp
    · simp [hk]

theorem listLastAssoc_cons (k0 v0 k : Value) (ps : List (Value × Value)) :
    listLastAssoc ((k0, v0) :: ps) k =
      if k0 = k then (listLastAssoc ps k).or (some v0)
      else listLastAssoc ps k := by
  by_cases h : k0 = k
  · simp only [listLastAssoc, List.filter_cons, decide_eq_true h, if_pos h,
      if_true]
    rw [getLast?_cons_or]
    cases (ps.filter (fun p => decide (p.1 = k))).getLast? <;> simp
  · simp only [listLastAssoc, List.filter_cons]
    simp [h]

theorem odGet_fold (ps : List (Value × Value)) (acc : List (Value × Value))
    (k : Value) :
    odGet (ps.foldl (fun d kv => odInsert d kv.1 kv.2) acc) k =
      (listLastAssoc ps k).or (odGet acc k) := by
  induction ps generalizing acc with
  | nil => simp [listLastAssoc]
  | cons p ps ih =>
    obtain ⟨k0, v0⟩ := p
    rw [List.foldl_cons, ih, listLastAssoc_cons, odGet_odInsert]
    by_cases h : k0 = k
    · rw [if_pos h, Option.or_assoc]
      have : (if k = k0 then some v0 else odGet acc k) = some v0 := by
        simp [h.symm]
      rw [this]
      simp
    · rw [if_neg h]
      have : (if k = k0 then some v0 else odGet acc k) = odGet acc k := by
        have : ¬(k = k0) := fun he => h he.symm
        simp [this]
      rw [this]

theorem odKeys_odInsert (d : List (Value × Value)) (kr v : Value) :
    odKeys (odInsert d kr v) =
      if kr ∈ odKeys d then odKeys d else odKeys d ++ [kr] := by
  unfold odInsert
  cases hany : d.any (fun kv => vbeq kv.1 kr) with
  | true =>
    have hmem : kr ∈ odKeys d := by
      rw [List.any_eq_true] at hany
      obtain ⟨kv, hkv, hb⟩ := hany
      have := (vbeq_eq kv.1 kr).mp hb
      rw [← this]
      exact List.mem_map_of_mem _ hkv
    rw [if_pos hmem]
    simp only [if_true, odKeys, List.map_map]
    refine List.map_congr_left (fun kv hkv => ?_)
    by_cases hb : vbeq kv.1 kr = true
    · simp [Function.comp, hb]
    · simp only [Function.comp]
      rw [if_neg hb]
  | false =>
    have hmem : kr ∉ odKeys d := by
      intro hm
      obtain ⟨kv, hkv, hke⟩ := List.mem_map.mp hm
      have : vbeq kv.1 kr = true := (vbeq_eq kv.1 kr).mpr hke
      have h2 : d.any (fun kv => vbeq kv.1 kr) = true :=
        List.any_eq_true.mpr ⟨kv, hkv, this⟩
      rw [hany] at h2
      exact Bool.noConfusion h2
    rw [if_neg hmem]
    simp [odKeys]

theorem odKeys_fold (ps : List (Value × Value)) (acc : List (Value × Value)) :
    odKeys (ps.foldl (fun d kv => odInsert d kv.1 kv.2) acc) =
      odKeys acc ++ firstOccAux (odKeys acc) (ps.map (fun p => p.1)) := by
  induction ps generalizing acc with
  | nil => simp [firstOccAux]
  | cons p ps ih =>
    obtain ⟨k0, v0⟩ := p
    rw [List.foldl_cons, ih, odKeys_odInsert]
    by_cases h : k0 ∈ odKeys acc
    · rw [if_pos h]
      simp only [List.map_cons, firstOccAux, if_pos h]
    · rw [if_neg h]
      simp only [List.map_cons, firstOccAux, if_neg h]
      simp

/-- C9: the mapping converter accepts duplicate keys (no failure): the
built ordered dict associates a duplicated key with the value of its
last occurrence among the converted pairs, and its keys are the first
occurrences in encounter order.  Concretely, `Mapping[str, int]` on
"k:1,k:2" yields the single-entry mapping k2. -/
theorem claim_C9 :
    (∀ (ps : List (Value × Value)) (k : Value),
      odGet (odFromPairs ps) k = listLastAssoc ps k) ∧
    (∀ ps : List (Value × Value),
      odKeys (odFromPairs ps) = firstOccurrences (ps.map (fun p => p.1))) ∧
    convert (.mapT .strT .intT) "k:1,k:2".data =
      .ok (.VMap [(.VStr "k".data, .VInt 2)]) := by
  refine ⟨fun ps k => ?_, fun ps => ?_, by rfl⟩
  · rw [odFromPairs, odGet_fold]
    simp [odGet]
  · rw [odFromPairs, odKeys_fold]
    simp [odKeys, firstOccurrences]
